import Mathlib

/-!
Verification of the cycle-detector reachability store
(src/cycle_detector.c).

The C program keeps a single global bit matrix
`FIELD ancestors[TOTAL_NODES][FIELDS_PER_NODE]` where
`FIELDS_PER_NODE = TOTAL_NODES / FIELD_SIZE` and `FIELD_SIZE` is the
bit width of the `FIELD` type (`sizeof(FIELD)*8`; 32 on the 32-bit
Macintosh platforms the file documents itself as compiled and tested
on, where both `int` and `unsigned long` are 32 bits wide and the
shift `1 << (a % FIELD_SIZE)` computes exactly `2 ^ (a % FIELD_SIZE)`
modulo `2 ^ 32`, a value below `2 ^ FIELD_SIZE`).

The embedding models the matrix as a total function
`Mat : Nat → Nat → Nat`, row index then field index, each field a
natural number standing for the word value (every reachable field
value stays below `2 ^ w`, so no truncation arises).  `TOTAL_NODES`
and `FIELD_SIZE` are passed explicitly as parameters `N` and `w`, so
that the theorems cover the source constant `N = 65536, w = 32` and
small instances alike.
-/

namespace CycleDetector

/-- A row-major ancestors matrix: `M k f` is the word holding bits
`f*w .. f*w+w-1` of row `k` (row `k` lists the recorded ancestors of
node `k`).  C source: `FIELD ancestors[TOTAL_NODES][FIELDS_PER_NODE]`. -/
abbrev Mat : Type := Nat → Nat → Nat

/-- Return value of `insert_link` for a rejected edge (C line 139). -/
def FAIL : Nat := 0

/-- Return value of `insert_link` for an accepted edge (C line 140). -/
def PASS : Nat := 1

/-- Return value of `insert_link` for an out-of-range id (C line 141). -/
def BAD_DATA : Nat := 2

/-- The source's compile-time node bound (C line 127). -/
def TOTAL_NODES : Nat := 65536

/-- The all-zero matrix: C global (static) storage before
`initialize_ancestors` runs. -/
def zero_matrix : Mat := fun _ _ => 0

/-- C `is_ancestor` (lines 206-216): test bit `a % w` of word `a / w`
of row `n`; `bit_to_get = 1 << n_target_bit` is `2 ^ (a % w)` and the
C returns TRUE exactly when the masked word is nonzero. -/
def is_ancestor (w : Nat) (M : Mat) (n_node n_ancestor : Nat) : Bool :=
  M n_node (n_ancestor / w) &&& 2 ^ (n_ancestor % w) != 0

/-- C `set_ancestor` (lines 218-227): OR bit `a % w` into word `a / w`
of row `d`; every other entry of the matrix is untouched. -/
def set_ancestor (w : Nat) (M : Mat) (n_descendant n_ancestor : Nat) : Mat :=
  fun k f =>
    if k = n_descendant ∧ f = n_ancestor / w then M k f ||| 2 ^ (n_ancestor % w)
    else M k f

/-- One iteration of the outer `k` loop of C `insert_ancestors`
(lines 183-192): if `is_ancestor(k, end_node)`, OR every word
`n_field < FIELDS_PER_NODE` of row `start_node` into row `k`. -/
def propagate_row (N w : Nat) (s t : Nat) (M : Mat) (k : Nat) : Mat :=
  if is_ancestor w M k t then
    fun k' f => if k' = k ∧ f < N / w then M k' f ||| M s f else M k' f
  else M

/-- C `insert_ancestors` (lines 178-194): run the `k` loop over
`0 .. TOTAL_NODES-1` in order, mutating the matrix in place (each step
reads the current matrix, exactly as the C loop does). -/
def insert_ancestors (N w : Nat) (M : Mat) (s t : Nat) : Mat :=
  (List.range N).foldl (propagate_row N w s t) M

/-- C `initialize_ancestors` (lines 196-204): starting from the zeroed
static matrix, `set_ancestor(i, i)` for every `i < TOTAL_NODES`. -/
def initialize_ancestors (N w : Nat) : Mat :=
  (List.range N).foldl (fun M i => set_ancestor w M i i) zero_matrix

/-- C `insert_link` (lines 156-176) on in-range (natural) inputs: the
two upper-bound guards, the self-loop guard, the cycle test, then
`insert_ancestors`.  Returns the C result code and the matrix after
the call. -/
def insert_link (N w : Nat) (M : Mat) (s t : Nat) : Nat × Mat :=
  if N ≤ s then (BAD_DATA, M)
  else if N ≤ t then (BAD_DATA, M)
  else if s = t then (FAIL, M)
  else if is_ancestor w M s t then (FAIL, M)
  else (PASS, insert_ancestors N w M s t)

/-- C `insert_link` on its actual argument type, `int`, which admits
negative values.  The C guards are only `start_node >= TOTAL_NODES`
and `end_node >= TOTAL_NODES`; a negative id passes both guards and
reaches `is_ancestor`, which evaluates `ancestors[n_node][n_ancestor / FIELD_SIZE]`
— an out-of-bounds access into the static matrix (or, for small
negative `n_ancestor`, a shift by a negative count): undefined
behavior, modeled here as `none`.  All other paths are defined and
agree with `insert_link` on the corresponding naturals. -/
def insert_link_int (N w : Nat) (M : Mat) (s t : Int) : Option (Nat × Mat) :=
  if (N : Int) ≤ s then some (BAD_DATA, M)
  else if (N : Int) ≤ t then some (BAD_DATA, M)
  else if s = t then some (FAIL, M)
  else if s < 0 ∨ t < 0 then none
  else if is_ancestor w M s.toNat t.toNat then some (FAIL, M)
  else some (PASS, insert_ancestors N w M s.toNat t.toNat)

/-- Fold a whole request list through `insert_link`, starting from a
given matrix: the matrix the C process holds after serving the
requests in order (the `main` loop, lines 229-246, with I/O
stripped). -/
def run_from (N w : Nat) (M : Mat) (es : List (Nat × Nat)) : Mat :=
  es.foldl (fun A r => (insert_link N w A r.1 r.2).2) M

/-- The matrix after `initialize_ancestors` followed by the request
list `es`. -/
def run_links (N w : Nat) (es : List (Nat × Nat)) : Mat :=
  run_from N w (initialize_ancestors N w) es

/-- The sublist of requests for which `insert_link` returned PASS when
served in order from matrix `M`. -/
def accepted_from (N w : Nat) (M : Mat) : List (Nat × Nat) → List (Nat × Nat)
  | [] => []
  | r :: rs =>
    if (insert_link N w M r.1 r.2).1 = PASS then
      r :: accepted_from N w (insert_link N w M r.1 r.2).2 rs
    else
      accepted_from N w (insert_link N w M r.1 r.2).2 rs

/-- The edges accepted (PASS) when the request list is served from the
freshly initialized matrix. -/
def accepted_links (N w : Nat) (es : List (Nat × Nat)) : List (Nat × Nat) :=
  accepted_from N w (initialize_ancestors N w) es

/-- The edge relation of a list of committed edges: `linked es a b`
holds when the edge `a → b` is in the list. -/
def linked (es : List (Nat × Nat)) (a b : Nat) : Prop := (a, b) ∈ es

/-- The request list `(1,2), (2,3), …, (k-1,k)` of the chain test. -/
def chain_links (k : Nat) : List (Nat × Nat) :=
  (List.range' 1 (k - 1)).map (fun i => (i, i + 1))

/-! Basic bit-level lemmas. -/

/-- The C nonzero-mask test is exactly `Nat.testBit`. -/
lemma is_ancestor_eq_testBit (w : Nat) (M : Mat) (n a : Nat) :
    is_ancestor w M n a = (M n (a / w)).testBit (a % w) := by
  unfold is_ancestor
  rw [Nat.and_two_pow]
  cases h : (M n (a / w)).testBit (a % w) <;>
    simp [h, bne_iff_ne, Nat.pos_iff_ne_zero.mp (Nat.pos_pow_of_pos (a % w) (by norm_num : 0 < 2))]

lemma lor_self_nat (a : Nat) : a ||| a = a := by
  apply Nat.eq_of_testBit_eq
  intro i
  simp [Nat.testBit_lor]

lemma eq_of_div_mod_eq {w i j : Nat} (h1 : i / w = j / w) (h2 : i % w = j % w) :
    i = j := by
  calc i = w * (i / w) + i % w := (Nat.div_add_mod i w).symm
    _ = w * (j / w) + j % w := by rw [h1, h2]
    _ = j := Nat.div_add_mod j w

/-- `is_ancestor` reads only row `n` of the matrix. -/
lemma is_ancestor_congr_row (w : Nat) {M M' : Mat} {n : Nat}
    (h : ∀ f, M n f = M' n f) (a : Nat) :
    is_ancestor w M n a = is_ancestor w M' n a := by
  unfold is_ancestor
  rw [h]

/-! Pointwise description of one step of the `insert_ancestors` loop. -/

lemma propagate_row_apply (N w s t : Nat) (M : Mat) (k k' f : Nat) :
    propagate_row N w s t M k k' f =
      if k' = k ∧ is_ancestor w M k t = true ∧ f < N / w then M k' f ||| M s f
      else M k' f := by
  by_cases h1 : is_ancestor w M k t = true <;>
    by_cases h2 : k' = k <;>
      by_cases h3 : f < N / w <;>
        simp [propagate_row, h1, h2, h3]

/-- Rows other than `k` are untouched by one loop step. -/
lemma propagate_row_ne (N w s t : Nat) (M : Mat) (k k' f : Nat) (h : k' ≠ k) :
    propagate_row N w s t M k k' f = M k' f := by
  rw [propagate_row_apply, if_neg (fun hc => h hc.1)]

/-- Row `start_node` never changes during the loop: the only write to
it ORs it with itself. -/
lemma propagate_row_source (N w s t : Nat) (M : Mat) (k f : Nat) :
    propagate_row N w s t M k s f = M s f := by
  rw [propagate_row_apply]
  split_ifs with h
  · exact lor_self_nat _
  · rfl

/-- The whole `k` loop, run over any duplicate-free index list, acts
pointwise: row `k` becomes its OR with row `s` exactly when
`is_ancestor w M k t` held in the starting matrix, and only on word
indices below `FIELDS_PER_NODE`. -/
lemma foldl_propagate_row (N w s t : Nat) (l : List Nat) :
    ∀ (M : Mat), l.Nodup → ∀ k f,
      l.foldl (propagate_row N w s t) M k f =
        if k ∈ l ∧ is_ancestor w M k t = true ∧ f < N / w then M k f ||| M s f
        else M k f := by
  induction l with
  | nil =>
    intro M _ k f
    simp
  | cons a l ih =>
    intro M hnd k f
    have hal : a ∉ l := (List.nodup_cons.mp hnd).1
    have hl : l.Nodup := (List.nodup_cons.mp hnd).2
    rw [List.foldl_cons, ih (propagate_row N w s t M a) hl k f]
    by_cases hka : k = a
    · subst hka
      rw [if_neg (fun hc => hal hc.1), propagate_row_apply]
      simp [List.mem_cons]
    · have hrow : ∀ g, propagate_row N w s t M a k g = M k g :=
        fun g => propagate_row_ne N w s t M a k g hka
      have hia : is_ancestor w (propagate_row N w s t M a) k t
          = is_ancestor w M k t := is_ancestor_congr_row w hrow t
      have hsrc : propagate_row N w s t M a s f = M s f :=
        propagate_row_source N w s t M a f
      rw [hia, hsrc, hrow]
      simp [List.mem_cons, hka]

/-- Pointwise characterization of `insert_ancestors`. -/
lemma insert_ancestors_apply (N w : Nat) (M : Mat) (s t k f : Nat) :
    insert_ancestors N w M s t k f =
      if k < N ∧ is_ancestor w M k t = true ∧ f < N / w then M k f ||| M s f
      else M k f := by
  unfold insert_ancestors
  rw [foldl_propagate_row N w s t (List.range N) M (List.nodup_range N) k f]
  simp [List.mem_range]

/-- Row `start_node` is unchanged by `insert_ancestors`. -/
lemma insert_ancestors_source (N w : Nat) (M : Mat) (s t f : Nat) :
    insert_ancestors N w M s t s f = M s f := by
  rw [insert_ancestors_apply]
  split_ifs with h
  · exact lor_self_nat _
  · rfl

/-- A recorded ancestor is never cleared by `insert_ancestors`. -/
lemma insert_ancestors_mono (N w : Nat) (M : Mat) (s t i j : Nat)
    (h : is_ancestor w M i j = true) :
    is_ancestor w (insert_ancestors N w M s t) i j = true := by
  rw [is_ancestor_eq_testBit] at h ⊢
  rw [insert_ancestors_apply]
  split_ifs with hc
  · rw [Nat.testBit_lor, h]
    rfl
  · exact h

/-- Column `end_node` of the `is_ancestor` test is unchanged by
`insert_ancestors M s t`: descendants of `t` stay descendants
(monotone OR) and non-descendants get no write at all. -/
lemma is_ancestor_insert_ancestors_target (N w : Nat) (M : Mat) (s t k : Nat) :
    is_ancestor w (insert_ancestors N w M s t) k t = is_ancestor w M k t := by
  rw [is_ancestor_eq_testBit, is_ancestor_eq_testBit, insert_ancestors_apply]
  split_ifs with hc
  · rcases hc with ⟨_, h1, _⟩
    rw [is_ancestor_eq_testBit] at h1
    rw [Nat.testBit_lor, h1]
    simp
  · rfl

/-- Running `insert_ancestors` twice with the same arguments changes
nothing the second time. -/
lemma insert_ancestors_idem_aux (N w : Nat) (M : Mat) (s t : Nat) :
    insert_ancestors N w (insert_ancestors N w M s t) s t
      = insert_ancestors N w M s t := by
  funext k f
  conv_lhs => rw [insert_ancestors_apply]
  rw [is_ancestor_insert_ancestors_target, insert_ancestors_source]
  split_ifs with hc
  · rcases hc with ⟨hk, h1, hf⟩
    rw [insert_ancestors_apply, if_pos ⟨hk, h1, hf⟩, Nat.lor_assoc, lor_self_nat]
  · rfl

/-! Characterization of the initialized matrix. -/

lemma foldl_set_diag (w : Nat) (l : List Nat) :
    ∀ (M : Mat), l.Nodup → ∀ k f,
      (l.foldl (fun A i => set_ancestor w A i i) M) k f =
        if k ∈ l ∧ f = k / w then M k f ||| 2 ^ (k % w) else M k f := by
  induction l with
  | nil =>
    intro M _ k f
    simp
  | cons a l ih =>
    intro M hnd k f
    rw [List.foldl_cons, ih (set_ancestor w M a a) (List.nodup_cons.mp hnd).2 k f]
    by_cases hka : k = a
    · subst hka
      rw [if_neg (fun hc => (List.nodup_cons.mp hnd).1 hc.1)]
      unfold set_ancestor
      simp [List.mem_cons]
    · have hrow : set_ancestor w M a a k f = M k f := by
        unfold set_ancestor
        simp [hka]
      rw [hrow]
      simp [List.mem_cons, hka]

/-- Each entry of the freshly initialized matrix: the diagonal word of
each row holds exactly its diagonal bit, every other word is zero. -/
lemma initialize_apply (N w : Nat) (k f : Nat) :
    initialize_ancestors N w k f =
      if k < N ∧ f = k / w then 2 ^ (k % w) else 0 := by
  unfold initialize_ancestors
  rw [foldl_set_diag w (List.range N) zero_matrix (List.nodup_range N) k f]
  simp [zero_matrix, List.mem_range]

/-- The initialized matrix records exactly the diagonal. -/
lemma is_ancestor_init (N w : Nat) (i j : Nat) :
    is_ancestor w (initialize_ancestors N w) i j = true ↔ i < N ∧ i = j := by
  rw [is_ancestor_eq_testBit, initialize_apply]
  by_cases hi : i < N
  · by_cases hc : j / w = i / w
    · rw [if_pos ⟨hi, hc⟩]
      by_cases hb : i % w = j % w
      · rw [hb, Nat.testBit_two_pow_self]
        exact ⟨fun _ => ⟨hi, eq_of_div_mod_eq hc.symm hb⟩, fun _ => rfl⟩
      · rw [Nat.testBit_two_pow_of_ne hb]
        exact ⟨fun h => absurd h (by simp),
          fun h => absurd (congrArg (· % w) h.2) hb⟩
    · rw [if_neg (fun hcc => hc hcc.2), Nat.zero_testBit]
      exact ⟨fun h => absurd h (by simp),
        fun h => absurd (congrArg (· / w) h.2).symm hc⟩
  · rw [if_neg (fun hc => hi hc.1), Nat.zero_testBit]
    exact ⟨fun h => absurd h (by simp), fun h => absurd h.1 hi⟩

/-! The decision rule of `insert_link` and its consequences. -/

/-- Every `insert_link` call either leaves the matrix alone with a
non-PASS code, or passes the guards (in range, no self-loop, no
recorded ancestor) and commits `insert_ancestors`. -/
lemma insert_link_cases (N w : Nat) (M : Mat) (s t : Nat) :
    ((insert_link N w M s t).2 = M ∧ (insert_link N w M s t).1 ≠ PASS) ∨
      (insert_link N w M s t = (PASS, insert_ancestors N w M s t) ∧
        s < N ∧ t < N ∧ s ≠ t ∧ is_ancestor w M s t = false) := by
  unfold insert_link
  split_ifs with h1 h2 h3 h4
  · exact Or.inl ⟨rfl, (by decide : BAD_DATA ≠ PASS)⟩
  · exact Or.inl ⟨rfl, (by decide : BAD_DATA ≠ PASS)⟩
  · exact Or.inl ⟨rfl, (by decide : FAIL ≠ PASS)⟩
  · exact Or.inl ⟨rfl, (by decide : FAIL ≠ PASS)⟩
  · exact Or.inr ⟨rfl, Nat.not_le.mp h1, Nat.not_le.mp h2, h3,
      by simpa using h4⟩

/-- `insert_link` never clears a recorded ancestor. -/
lemma insert_link_mono (N w : Nat) (M : Mat) (s t i j : Nat)
    (h : is_ancestor w M i j = true) :
    is_ancestor w ((insert_link N w M s t).2) i j = true := by
  rcases insert_link_cases N w M s t with ⟨hM, _⟩ | ⟨hM, _⟩
  · rw [hM]
    exact h
  · rw [hM]
    exact insert_ancestors_mono N w M s t i j h

lemma run_from_cons (N w : Nat) (M : Mat) (e : Nat × Nat)
    (es : List (Nat × Nat)) :
    run_from N w M (e :: es) = run_from N w ((insert_link N w M e.1 e.2).2) es :=
  rfl

/-- No request sequence ever clears a recorded ancestor. -/
lemma run_from_mono (N w : Nat) (es : List (Nat × Nat)) :
    ∀ (M : Mat) (i j : Nat), is_ancestor w M i j = true →
      is_ancestor w (run_from N w M es) i j = true := by
  induction es with
  | nil =>
    intro M i j h
    exact h
  | cons e es ih =>
    intro M i j h
    rw [run_from_cons]
    exact ih _ i j (insert_link_mono N w M e.1 e.2 i j h)

/-- Effect of one committed propagation on the recorded relation:
node `j` becomes an ancestor of `i` exactly when it already was, or
when `i` descends from `t` and `j` is an ancestor of `s`. -/
lemma is_ancestor_insert_ancestors (N w : Nat) (hw : 0 < w) (hdvd : w ∣ N)
    (M : Mat) (s t i j : Nat) (hi : i < N) (hj : j < N) :
    (is_ancestor w (insert_ancestors N w M s t) i j = true ↔
      is_ancestor w M i j = true ∨
        (is_ancestor w M i t = true ∧ is_ancestor w M s j = true)) := by
  have hjw : j / w < N / w := by
    rw [Nat.div_lt_iff_lt_mul hw, Nat.div_mul_cancel hdvd]
    exact hj
  by_cases h1 : is_ancestor w M i t = true
  · rw [is_ancestor_eq_testBit, insert_ancestors_apply, if_pos ⟨hi, h1, hjw⟩,
      Nat.testBit_lor, ← is_ancestor_eq_testBit w M i j,
      ← is_ancestor_eq_testBit w M s j]
    simp [h1]
  · rw [is_ancestor_eq_testBit, insert_ancestors_apply,
      if_neg (fun hc => h1 hc.2.1), ← is_ancestor_eq_testBit w M i j]
    simp [h1]

/-! Reflexive-transitive closure bookkeeping. -/

lemma reflTransGen_congr {E F : Nat → Nat → Prop}
    (h : ∀ a b, E a b ↔ F a b) {a b : Nat} :
    Relation.ReflTransGen E a b ↔ Relation.ReflTransGen F a b :=
  ⟨Relation.ReflTransGen.mono (fun x y => (h x y).mp),
    Relation.ReflTransGen.mono (fun x y => (h x y).mpr)⟩

lemma reflTransGen_false {a b : Nat} :
    Relation.ReflTransGen (fun _ _ : Nat => False) a b ↔ a = b := by
  constructor
  · intro h
    induction h with
    | refl => rfl
    | tail _ h2 _ => exact h2.elim
  · rintro rfl
    exact Relation.ReflTransGen.refl

/-- Adding the single edge `s → t` to a relation adds exactly the
paths that route through that edge. -/
lemma reflTransGen_union_single {E : Nat → Nat → Prop} {s t : Nat} (a b : Nat) :
    Relation.ReflTransGen (fun x y => E x y ∨ (x = s ∧ y = t)) a b ↔
      Relation.ReflTransGen E a b ∨
        (Relation.ReflTransGen E a s ∧ Relation.ReflTransGen E t b) := by
  constructor
  · intro h
    induction h with
    | refl => exact Or.inl Relation.ReflTransGen.refl
    | tail h1 h2 ih =>
      rcases h2 with h2 | ⟨rfl, rfl⟩
      · rcases ih with ih | ⟨ih1, ih2⟩
        · exact Or.inl (ih.tail h2)
        · exact Or.inr ⟨ih1, ih2.tail h2⟩
      · rcases ih with ih | ⟨ih1, _⟩
        · exact Or.inr ⟨ih, Relation.ReflTransGen.refl⟩
        · exact Or.inr ⟨ih1, Relation.ReflTransGen.refl⟩
  · rintro (h | ⟨h1, h2⟩)
    · exact h.mono (fun x y hxy => Or.inl hxy)
    · exact ((h1.mono (fun x y hxy => Or.inl hxy)).trans
        (Relation.ReflTransGen.single (Or.inr ⟨rfl, rfl⟩))).trans
        (h2.mono (fun x y hxy => Or.inl hxy))

/-- The invariant relating the matrix to an edge relation: recorded
ancestry is exactly reflexivity plus reachability. -/
def closure_inv (N w : Nat) (M : Mat) (E : Nat → Nat → Prop) : Prop :=
  ∀ i j, i < N → j < N →
    (is_ancestor w M i j = true ↔ i = j ∨ Relation.ReflTransGen E j i)

lemma closure_inv_init (N w : Nat) :
    closure_inv N w (initialize_ancestors N w) (fun _ _ => False) := by
  intro i j hi _
  rw [is_ancestor_init, reflTransGen_false]
  constructor
  · rintro ⟨_, rfl⟩
    exact Or.inl rfl
  · rintro (rfl | rfl)
    · exact ⟨hi, rfl⟩
    · exact ⟨hi, rfl⟩

/-- Committing one in-range edge preserves the invariant, with the
edge added to the relation. -/
lemma closure_inv_step (N w : Nat) (hw : 0 < w) (hdvd : w ∣ N) (M : Mat)
    (E : Nat → Nat → Prop) (s t : Nat) (hs : s < N) (ht : t < N)
    (hinv : closure_inv N w M E) :
    closure_inv N w (insert_ancestors N w M s t)
      (fun a b => E a b ∨ (a = s ∧ b = t)) := by
  intro i j hi hj
  rw [is_ancestor_insert_ancestors N w hw hdvd M s t i j hi hj,
    hinv i j hi hj, hinv i t hi ht, hinv s j hs hj,
    reflTransGen_union_single j i]
  constructor
  · rintro ((h | h) | ⟨h1, h2⟩)
    · exact Or.inl h
    · exact Or.inr (Or.inl h)
    · have g1 : Relation.ReflTransGen E t i := by
        rcases h1 with rfl | h1
        · exact Relation.ReflTransGen.refl
        · exact h1
      have g2 : Relation.ReflTransGen E j s := by
        rcases h2 with rfl | h2
        · exact Relation.ReflTransGen.refl
        · exact h2
      exact Or.inr (Or.inr ⟨g2, g1⟩)
  · rintro (h | h | ⟨h1, h2⟩)
    · exact Or.inl (Or.inl h)
    · exact Or.inl (Or.inr h)
    · exact Or.inr ⟨Or.inr h2, Or.inr h1⟩

/-- Serving a request list preserves the invariant, with exactly the
PASS-ed edges added to the relation. -/
lemma run_from_closure (N w : Nat) (hw : 0 < w) (hdvd : w ∣ N)
    (es : List (Nat × Nat)) :
    ∀ (M : Mat) (E : Nat → Nat → Prop), closure_inv N w M E →
      closure_inv N w (run_from N w M es)
        (fun a b => E a b ∨ (a, b) ∈ accepted_from N w M es) := by
  induction es with
  | nil =>
    intro M E hinv i j hi hj
    have he : ∀ a b : Nat, (E a b ∨ (a, b) ∈ accepted_from N w M []) ↔ E a b := by
      intro a b
      simp [accepted_from]
    rw [show run_from N w M [] = M from rfl, hinv i j hi hj]
    exact or_congr Iff.rfl ((reflTransGen_congr he).symm)
  | cons e es ih =>
    intro M E hinv i j hi hj
    rcases insert_link_cases N w M e.1 e.2 with ⟨hM, hres⟩ | ⟨hlink, hs, ht, _, _⟩
    · have hacc : accepted_from N w M (e :: es)
          = accepted_from N w ((insert_link N w M e.1 e.2).2) es := by
        simp only [accepted_from]
        rw [if_neg hres]
      rw [run_from_cons, hacc, hM]
      exact ih M E hinv i j hi hj
    · have hpass : (insert_link N w M e.1 e.2).1 = PASS := by
        rw [hlink]
      have hacc : accepted_from N w M (e :: es)
          = e :: accepted_from N w ((insert_link N w M e.1 e.2).2) es := by
        simp only [accepted_from]
        rw [if_pos hpass]
      have hM2 : (insert_link N w M e.1 e.2).2 = insert_ancestors N w M e.1 e.2 := by
        rw [hlink]
      rw [run_from_cons, hacc, hM2]
      have hstep := closure_inv_step N w hw hdvd M E e.1 e.2 hs ht hinv
      refine (ih _ _ hstep i j hi hj).trans
        (or_congr Iff.rfl (reflTransGen_congr (fun a b => ?_)))
      simp only [List.mem_cons, Prod.ext_iff]
      tauto

/-! The chain test `1 → 2 → … → k`. -/

lemma bool_eq_false {b : Bool} (h : ¬ b = true) : b = false := by
  cases b
  · rfl
  · exact absurd rfl h

/-- When every guard passes, `insert_link` commits the propagation and
reports PASS. -/
lemma insert_link_pass (N w : Nat) (M : Mat) (s t : Nat) (hs : s < N)
    (ht : t < N) (hst : s ≠ t) (hia : is_ancestor w M s t = false) :
    insert_link N w M s t = (PASS, insert_ancestors N w M s t) := by
  unfold insert_link
  rw [if_neg (Nat.not_le.mpr hs), if_neg (Nat.not_le.mpr ht), if_neg hst,
    if_neg (by simp [hia])]

lemma run_from_append (N w : Nat) (M : Mat) (es fs : List (Nat × Nat)) :
    run_from N w M (es ++ fs) = run_from N w (run_from N w M es) fs := by
  unfold run_from
  rw [List.foldl_append]

lemma accepted_from_append (N w : Nat) (es fs : List (Nat × Nat)) :
    ∀ M : Mat, accepted_from N w M (es ++ fs)
      = accepted_from N w M es ++ accepted_from N w (run_from N w M es) fs := by
  induction es with
  | nil =>
    intro M
    rfl
  | cons e es ih =>
    intro M
    simp only [List.cons_append, accepted_from]
    by_cases hp : (insert_link N w M e.1 e.2).1 = PASS
    · rw [if_pos hp, if_pos hp,
        show (es.append fs) = es ++ fs from rfl, ih, run_from_cons,
        List.cons_append]
    · rw [if_neg hp, if_neg hp,
        show (es.append fs) = es ++ fs from rfl, ih, run_from_cons]

lemma chain_links_succ (k : Nat) (hk : 1 ≤ k) :
    chain_links (k + 1) = chain_links k ++ [(k, k + 1)] := by
  unfold chain_links
  have h1 : k + 1 - 1 = (k - 1) + 1 := by omega
  rw [h1, List.range'_concat, List.map_append]
  have h2 : 1 + 1 * (k - 1) = k := by omega
  rw [h2]
  simp

/-- After the chain `1 → 2 → … → k` the matrix records exactly
reflexivity plus every pair `j < i` inside the chain, and every edge
of the chain was accepted. -/
lemma chain_closure (N w : Nat) (hw : 0 < w) (hdvd : w ∣ N) :
    ∀ k, 1 ≤ k → k < N →
      (∀ i j, i < N → j < N →
        (is_ancestor w (run_links N w (chain_links k)) i j = true ↔
          i = j ∨ (1 ≤ j ∧ j < i ∧ i ≤ k))) ∧
      accepted_links N w (chain_links k) = chain_links k := by
  intro k
  induction k with
  | zero =>
    intro h
    exact absurd h (by decide)
  | succ k ih =>
    intro _ hkN
    by_cases hk1 : 1 ≤ k
    · have hkN' : k < N := Nat.lt_of_succ_lt hkN
      obtain ⟨ihc, iha⟩ := ih hk1 hkN'
      have hfalse : is_ancestor w (run_links N w (chain_links k)) k (k + 1)
          = false := by
        apply bool_eq_false
        intro hb
        have := (ihc k (k + 1) hkN' hkN).mp hb
        omega
      have hpass := insert_link_pass N w (run_links N w (chain_links k)) k (k + 1)
        hkN' hkN (by omega) hfalse
      have hrun : run_links N w (chain_links (k + 1))
          = insert_ancestors N w (run_links N w (chain_links k)) k (k + 1) := by
        unfold run_links
        rw [chain_links_succ k hk1, run_from_append]
        have hstep : run_from N w (run_from N w (initialize_ancestors N w)
              (chain_links k)) [(k, k + 1)]
            = (insert_link N w (run_links N w (chain_links k)) k (k + 1)).2 := rfl
        rw [hstep, hpass]
        rfl
      constructor
      · intro i j hi hj
        rw [hrun,
          is_ancestor_insert_ancestors N w hw hdvd _ k (k + 1) i j hi hj,
          ihc i j hi hj, ihc i (k + 1) hi hkN, ihc k j hkN' hj]
        omega
      · have iha2 : accepted_from N w (initialize_ancestors N w) (chain_links k)
            = chain_links k := iha
        have hp1 : (insert_link N w (run_from N w (initialize_ancestors N w)
              (chain_links k)) k (k + 1)).1
            = PASS := by
          exact congrArg Prod.fst hpass
        have hsingle : accepted_from N w (run_from N w (initialize_ancestors N w)
              (chain_links k)) [(k, k + 1)]
            = [(k, k + 1)] := by
          simp [accepted_from, hp1]
        unfold accepted_links
        rw [chain_links_succ k hk1, accepted_from_append, iha2, hsingle]
    · have hk0 : k = 0 := by omega
      subst hk0
      have hchain : chain_links 1 = [] := rfl
      rw [hchain]
      constructor
      · intro i j hi hj
        show is_ancestor w (initialize_ancestors N w) i j = true ↔ _
        rw [is_ancestor_init]
        omega
      · rfl

/-! The claims. -/

/-- C1: after `initialize_ancestors` and any finite sequence of
`insert_link` calls, the ancestors relation equals the reflexive
transitive closure of the edges accepted so far: for all `i, j` in
`[0, N)`, `is_ancestor i j` is true if and only if `i = j` or there is
a path `j → … → i` through the edges for which `insert_link` returned
PASS — never a strict subset and never a strict superset of that
closure. -/
theorem closure_exact (N w : Nat) (hw : 0 < w) (hdvd : w ∣ N)
    (es : List (Nat × Nat)) (i j : Nat) (hi : i < N) (hj : j < N) :
    is_ancestor w (run_links N w es) i j = true ↔
      i = j ∨ Relation.ReflTransGen (linked (accepted_links N w es)) j i := by
  have h := run_from_closure N w hw hdvd es (initialize_ancestors N w)
    (fun _ _ => False) (closure_inv_init N w) i j hi hj
  refine h.trans (or_congr Iff.rfl (reflTransGen_congr (fun a b => ?_)))
  simp [linked, accepted_links]

theorem closure_exact_witness :
    0 < 4 ∧ (4:Nat) ∣ 4 ∧ (3:Nat) < 4 ∧ (1:Nat) < 4 ∧
      (is_ancestor 4 (run_links 4 4 [(1, 2), (2, 3)]) 3 1 = true ↔
        3 = 1 ∨ Relation.ReflTransGen
          (linked (accepted_links 4 4 [(1, 2), (2, 3)])) 1 3) :=
  ⟨by decide, dvd_refl 4, by decide, by decide,
    closure_exact 4 4 (by decide) (dvd_refl 4) [(1, 2), (2, 3)] 3 1
      (by decide) (by decide)⟩

/-- C2: for every call `insert_link s t` with `s` and `t` in `[0, N)`:
if `s = t` the result is FAIL and the matrix is unchanged; otherwise,
if `is_ancestor s t` is true the result is FAIL and the matrix is
unchanged; otherwise `insert_ancestors s t` is applied and the result
is PASS. -/
theorem insert_link_decision (N w : Nat) (M : Mat) (s t : Nat)
    (hs : s < N) (ht : t < N) :
    (s = t → insert_link N w M s t = (FAIL, M)) ∧
      (s ≠ t → is_ancestor w M s t = true → insert_link N w M s t = (FAIL, M)) ∧
      (s ≠ t → is_ancestor w M s t = false →
        insert_link N w M s t = (PASS, insert_ancestors N w M s t)) := by
  unfold insert_link
  rw [if_neg (Nat.not_le.mpr hs), if_neg (Nat.not_le.mpr ht)]
  refine ⟨fun h => by rw [if_pos h],
    fun h h2 => by rw [if_neg h, if_pos h2],
    fun h h2 => by rw [if_neg h, if_neg (by simp [h2])]⟩

theorem insert_link_decision_witness :
    (1:Nat) < 4 ∧ (2:Nat) < 4 ∧
      (((1:Nat) = 2 → insert_link 4 4 (initialize_ancestors 4 4) 1 2
          = (FAIL, initialize_ancestors 4 4)) ∧
        ((1:Nat) ≠ 2 → is_ancestor 4 (initialize_ancestors 4 4) 1 2 = true →
          insert_link 4 4 (initialize_ancestors 4 4) 1 2
            = (FAIL, initialize_ancestors 4 4)) ∧
        ((1:Nat) ≠ 2 → is_ancestor 4 (initialize_ancestors 4 4) 1 2 = false →
          insert_link 4 4 (initialize_ancestors 4 4) 1 2
            = (PASS, insert_ancestors 4 4 (initialize_ancestors 4 4) 1 2))) :=
  ⟨by decide, by decide,
    insert_link_decision 4 4 (initialize_ancestors 4 4) 1 2 (by decide) (by decide)⟩

/-- C3: for every node `x` in `[0, N)`, `is_ancestor x x` returns true
immediately after `initialize_ancestors`, and it remains true after
every subsequent sequence of `insert_link` calls, whatever their
arguments and results. -/
theorem reflexive_forever (N w : Nat) (x : Nat) (hx : x < N) :
    is_ancestor w (initialize_ancestors N w) x x = true ∧
      ∀ es : List (Nat × Nat), is_ancestor w (run_links N w es) x x = true := by
  have h0 : is_ancestor w (initialize_ancestors N w) x x = true :=
    (is_ancestor_init N w x x).mpr ⟨hx, rfl⟩
  exact ⟨h0, fun es => run_from_mono N w es (initialize_ancestors N w) x x h0⟩

theorem reflexive_forever_witness :
    (2:Nat) < 4 ∧
      (is_ancestor 4 (initialize_ancestors 4 4) 2 2 = true ∧
        ∀ es : List (Nat × Nat), is_ancestor 4 (run_links 4 4 es) 2 2 = true) :=
  ⟨by decide, reflexive_forever 4 4 2 (by decide)⟩

/-- C4 (corrected): for non-negative ids, if `s ≥ N` or `t ≥ N` then
`insert_link` returns BAD_DATA without touching the matrix.  The
original claim also covered negative ids, but the C guards test only
the upper bound (`start_node >= TOTAL_NODES`, `end_node >= TOTAL_NODES`),
so a negative id falls through to the `is_ancestor` matrix access —
see `negative_id_reaches_matrix`. -/
theorem out_of_range_bad_data (N w : Nat) (M : Mat) (s t : Int)
    (hs : 0 ≤ s) (ht : 0 ≤ t) (h : (N:Int) ≤ s ∨ (N:Int) ≤ t) :
    insert_link_int N w M s t = some (BAD_DATA, M) := by
  unfold insert_link_int
  rcases h with h | h
  · rw [if_pos h]
  · by_cases h1 : (N:Int) ≤ s
    · rw [if_pos h1]
    · rw [if_neg h1, if_pos h]

theorem out_of_range_bad_data_witness :
    (0:Int) ≤ 5 ∧ (0:Int) ≤ 0 ∧ (((4:Nat):Int) ≤ 5 ∨ ((4:Nat):Int) ≤ 0) ∧
      insert_link_int 4 4 (initialize_ancestors 4 4) 5 0
        = some (BAD_DATA, initialize_ancestors 4 4) :=
  ⟨by decide, by decide, Or.inl (by decide),
    out_of_range_bad_data 4 4 (initialize_ancestors 4 4) 5 0
      (by decide) (by decide) (Or.inl (by decide))⟩

/-- C4 counterexample: `insert_link(-1, 0)` does not return BAD_DATA
with the matrix untouched; the guards (which test only the upper
bound) all fall through and the call reaches the
`ancestors[-1][…]` access — the undefined out-of-bounds read modeled
as `none`.  So the claim fails for ids outside `[0, N)` that are
negative. -/
theorem negative_id_reaches_matrix :
    insert_link_int 4 4 (initialize_ancestors 4 4) (-1) 0 = none := rfl

/-- C5: `insert_ancestors s t` modifies exactly the rows `k` with
`is_ancestor k t` true before the call, replacing each such row by its
bitwise union with row `s`; every other row is unchanged; and the
result does not depend on the iteration order over `k` (any
permutation of the row order yields the same matrix). -/
theorem insert_ancestors_frame (N w : Nat) (M : Mat) (s t : Nat) :
    (∀ k f, insert_ancestors N w M s t k f =
        if k < N ∧ is_ancestor w M k t = true ∧ f < N / w then M k f ||| M s f
        else M k f) ∧
      ∀ l : List Nat, l.Perm (List.range N) →
        l.foldl (propagate_row N w s t) M = insert_ancestors N w M s t := by
  refine ⟨insert_ancestors_apply N w M s t, fun l hperm => ?_⟩
  funext k f
  rw [foldl_propagate_row N w s t l M (hperm.nodup_iff.mpr (List.nodup_range N)) k f,
    insert_ancestors_apply]
  simp [hperm.mem_iff, List.mem_range]

theorem insert_ancestors_frame_witness :
    ((List.range 4).reverse.Perm (List.range 4)) ∧
      (List.range 4).reverse.foldl (propagate_row 4 4 1 2) (initialize_ancestors 4 4)
        = insert_ancestors 4 4 (initialize_ancestors 4 4) 1 2 :=
  ⟨List.reverse_perm (List.range 4),
    (insert_ancestors_frame 4 4 (initialize_ancestors 4 4) 1 2).2
      (List.range 4).reverse (List.reverse_perm (List.range 4))⟩

/-- C6: `set_ancestor d a` followed by `is_ancestor d a` returns true,
and every other pair `(d', a') ≠ (d, a)` in range reads the same value
as before: the bit-packed set/test primitives round-trip and setting
one bit never aliases another ancestor id. -/
theorem set_ancestor_roundtrip (N w : Nat) (M : Mat) (d a : Nat)
    (hd : d < N) (ha : a < N) :
    is_ancestor w (set_ancestor w M d a) d a = true ∧
      ∀ d' a', d' < N → a' < N → (d', a') ≠ (d, a) →
        is_ancestor w (set_ancestor w M d a) d' a' = is_ancestor w M d' a' := by
  constructor
  · rw [is_ancestor_eq_testBit]
    unfold set_ancestor
    rw [if_pos ⟨rfl, rfl⟩, Nat.testBit_lor, Nat.testBit_two_pow_self]
    simp
  · intro d' a' _ _ hne
    rw [is_ancestor_eq_testBit, is_ancestor_eq_testBit]
    unfold set_ancestor
    by_cases h1 : d' = d
    · subst h1
      have haa : a' ≠ a := fun hc => hne (by rw [hc])
      by_cases h2 : a' / w = a / w
      · have hmm : a % w ≠ a' % w :=
          fun hmod => haa (eq_of_div_mod_eq h2 hmod.symm)
        rw [if_pos ⟨rfl, h2⟩, Nat.testBit_lor, Nat.testBit_two_pow_of_ne hmm,
          Bool.or_false]
      · rw [if_neg (fun hc => h2 hc.2)]
    · rw [if_neg (fun hc => h1 hc.1)]

theorem set_ancestor_roundtrip_witness :
    (1:Nat) < 4 ∧ (2:Nat) < 4 ∧
      (is_ancestor 4 (set_ancestor 4 (initialize_ancestors 4 4) 1 2) 1 2 = true ∧
        ∀ d' a', d' < 4 → a' < 4 → (d', a') ≠ (1, 2) →
          is_ancestor 4 (set_ancestor 4 (initialize_ancestors 4 4) 1 2) d' a'
            = is_ancestor 4 (initialize_ancestors 4 4) d' a') :=
  ⟨by decide, by decide,
    set_ancestor_roundtrip 4 4 (initialize_ancestors 4 4) 1 2
      (by decide) (by decide)⟩

/-- C7: after a fresh `initialize_ancestors` followed by the chain of
calls `insert_link 1 2`, `insert_link 2 3`, …, `insert_link (k-1) k`
(each returning PASS), `is_ancestor k m` is true for every
`1 ≤ m ≤ k`, and `is_ancestor m k` is false for every `1 ≤ m < k`. -/
theorem chain_reachability (N w k : Nat) (hw : 0 < w) (hdvd : w ∣ N)
    (hk : 1 ≤ k) (hkN : k < N) :
    accepted_links N w (chain_links k) = chain_links k ∧
      (∀ m, 1 ≤ m → m ≤ k →
        is_ancestor w (run_links N w (chain_links k)) k m = true) ∧
      (∀ m, 1 ≤ m → m < k →
        is_ancestor w (run_links N w (chain_links k)) m k = false) := by
  obtain ⟨hchar, hacc⟩ := chain_closure N w hw hdvd k hk hkN
  refine ⟨hacc, fun m h1 h2 => ?_, fun m h1 h2 => ?_⟩
  · exact (hchar k m hkN (Nat.lt_of_le_of_lt h2 hkN)).mpr (by omega)
  · apply bool_eq_false
    intro hb
    have := (hchar m k (Nat.lt_trans h2 hkN) hkN).mp hb
    omega

theorem chain_reachability_witness :
    0 < 4 ∧ (4:Nat) ∣ 4 ∧ 1 ≤ 3 ∧ (3:Nat) < 4 ∧
      (accepted_links 4 4 (chain_links 3) = chain_links 3 ∧
        (∀ m, 1 ≤ m → m ≤ 3 →
          is_ancestor 4 (run_links 4 4 (chain_links 3)) 3 m = true) ∧
        (∀ m, 1 ≤ m → m < 3 →
          is_ancestor 4 (run_links 4 4 (chain_links 3)) m 3 = false)) :=
  ⟨by decide, dvd_refl 4, by decide, by decide,
    chain_reachability 4 4 3 (by decide) (dvd_refl 4) (by decide) (by decide)⟩

/-- C8: the ancestors relation grows monotonically: for every single
`insert_link` call, whatever its arguments and result, and every pair
`(i, j)` in `[0, N) × [0, N)`, a true `is_ancestor i j` stays true
after the call — no operation ever clears a recorded ancestor. -/
theorem ancestors_monotone (N w : Nat) (M : Mat) (s t i j : Nat)
    (hi : i < N) (hj : j < N) (h : is_ancestor w M i j = true) :
    is_ancestor w ((insert_link N w M s t).2) i j = true :=
  insert_link_mono N w M s t i j h

theorem ancestors_monotone_witness :
    (2:Nat) < 4 ∧ (2:Nat) < 4 ∧
      is_ancestor 4 (initialize_ancestors 4 4) 2 2 = true ∧
      is_ancestor 4 ((insert_link 4 4 (initialize_ancestors 4 4) 1 2).2) 2 2
        = true :=
  ⟨by decide, by decide, by decide,
    ancestors_monotone 4 4 (initialize_ancestors 4 4) 1 2 2 2
      (by decide) (by decide) (by decide)⟩

/-- C9: `insert_ancestors` is idempotent: for all `s` and `t` in
`[0, N)` and every matrix state, running `insert_ancestors s t` a
second time immediately after a first run produces no further change
to the ancestors matrix. -/
theorem insert_ancestors_idem (N w : Nat) (M : Mat) (s t : Nat)
    (hs : s < N) (ht : t < N) :
    insert_ancestors N w (insert_ancestors N w M s t) s t
      = insert_ancestors N w M s t :=
  insert_ancestors_idem_aux N w M s t

theorem insert_ancestors_idem_witness :
    (1:Nat) < 4 ∧ (2:Nat) < 4 ∧
      insert_ancestors 4 4 (insert_ancestors 4 4 (initialize_ancestors 4 4) 1 2) 1 2
        = insert_ancestors 4 4 (initialize_ancestors 4 4) 1 2 :=
  ⟨by decide, by decide,
    insert_ancestors_idem 4 4 (initialize_ancestors 4 4) 1 2
      (by decide) (by decide)⟩

/-- C10: for `s ≠ t` in `[0, N)`, if `insert_link s t` returns PASS
then an immediately repeated `insert_link s t` also returns PASS — it
is never rejected as a duplicate — and the repeated call leaves the
ancestors matrix unchanged. -/
theorem repeated_insert_passes (N w : Nat) (M : Mat) (s t : Nat)
    (hs : s < N) (ht : t < N) (hst : s ≠ t)
    (h : (insert_link N w M s t).1 = PASS) :
    insert_link N w ((insert_link N w M s t).2) s t
      = (PASS, (insert_link N w M s t).2) := by
  rcases insert_link_cases N w M s t with ⟨_, hne⟩ | ⟨hlink, hs2, ht2, hst2, hia⟩
  · exact absurd h hne
  · have h2 : (insert_link N w M s t).2 = insert_ancestors N w M s t := by
      rw [hlink]
    rw [h2]
    have hsrc : is_ancestor w (insert_ancestors N w M s t) s t = false := by
      rw [is_ancestor_congr_row w (fun f => insert_ancestors_source N w M s t f) t]
      exact hia
    rw [insert_link_pass N w (insert_ancestors N w M s t) s t hs2 ht2 hst2 hsrc,
      insert_ancestors_idem_aux]

theorem repeated_insert_passes_witness :
    (1:Nat) < 4 ∧ (2:Nat) < 4 ∧ (1:Nat) ≠ 2 ∧
      (insert_link 4 4 (initialize_ancestors 4 4) 1 2).1 = PASS ∧
      insert_link 4 4 ((insert_link 4 4 (initialize_ancestors 4 4) 1 2).2) 1 2
        = (PASS, (insert_link 4 4 (initialize_ancestors 4 4) 1 2).2) :=
  ⟨by decide, by decide, by decide, by decide,
    repeated_insert_passes 4 4 (initialize_ancestors 4 4) 1 2
      (by decide) (by decide) (by decide) (by decide)⟩

end CycleDetector
